import Mathlib

/-!
Shallow embedding of `vstruct2/types.py` (vivisect/vstruct), together with
the parts of the primitive base contract (`vstruct2/bases.py` — `v_base`,
`v_prim`, `v_int`) that the repository ships but does not expose here;
those are modelled from the specification and marked as such in their
doc comments.

Modelling conventions:
* Python `bytes` values are `List Nat` (each entry a byte value `< 256`;
  lemmas that need the bound take it as a hypothesis).
* Text values (`cstr`/`zstr`) are modelled at the byte level: a character
  is one byte, matching the ASCII examples throughout the source.  The
  `utf8` codec is length-preserving on this fragment.
* Mutation of Python objects is explicit state passing: a parse returns
  the updated field tree.
-/

namespace VStruct2

/-- Byte order tag of an integer primitive.  The source passes the strings
`'little'` / `'big'` to `int.to_bytes` / `int.from_bytes`; these are the only
values those accept, so the tag is modelled as a two-element type. -/
inductive Endian where
  | little : Endian
  | big : Endian
deriving DecidableEq, Repr

/-- Field names.  `VStruct` attribute names are strings; `VArray.__setitem__`
uses integer indices as dictionary keys, so a name is either. -/
inductive VName where
  | str : String → VName
  | num : Nat → VName
deriving DecidableEq, Repr

/-- Python `name.startswith('_vs_')`, used by `VStruct.__setattr__` to divert
internal attributes away from the field dictionary. -/
def startsVs (s : String) : Bool :=
  s.toList.take 4 == "_vs_".toList

/-- Python slice `buf[off:off+n]` on bytes: never raises, short near the end. -/
def pySlice (buf : List Nat) (off n : Nat) : List Nat :=
  (buf.drop off).take n

/-- Python `b.ljust(n, b'\x00')`: right-pad with NULs up to `n`, and leave the
value alone when it is already at least `n` long (no truncation). -/
def ljust (b : List Nat) (n : Nat) : List Nat :=
  b ++ List.replicate (n - b.length) 0

/-- Little-endian base-256 digits of `u`, exactly `n` of them
(`int.to_bytes(n, 'little')` for an in-range value). -/
def natToLE : Nat → Nat → List Nat
  | 0, _ => []
  | n + 1, u => u % 256 :: natToLE n (u / 256)

/-- Value of a little-endian base-256 digit string (`int.from_bytes(bs, 'little')`). -/
def decodeLE : List Nat → Nat
  | [] => 0
  | b :: bs => b + 256 * decodeLE bs

/-- Modelled from the spec: `v_int` byte decoding (`bases.py` is not in the
sources; §3 fixes signed fields as two's complement and §6 the
decode-from-bytes operation).  `int.from_bytes(bs, endian, signed=signed)`. -/
def decodeInt (size : Nat) (endian : Endian) (signed : Bool) (bs : List Nat) : Int :=
  let u := decodeLE (match endian with | .little => bs | .big => bs.reverse)
  if signed ∧ 2 ^ (8 * size) ≤ 2 * u then (u : Int) - 2 ^ (8 * size) else (u : Int)

/-- Modelled from the spec: `v_int` byte encoding, the inverse direction of
`decodeInt` (`valu.to_bytes(size, endian, signed=signed)` for an in-range
value; `Int.emod` realises the two's-complement representative). -/
def encodeInt (size : Nat) (endian : Endian) (v : Int) : List Nat :=
  let digits := natToLE size (v % 2 ^ (8 * size)).toNat
  match endian with | .little => digits | .big => digits.reverse

/-- Leaf field state: the four primitive classes of `types.py` with the state
the base keeps for them (`_vs_size` and `_vs_value`, plus `_vs_endian` and
`_vs_signed` for integers). -/
inductive Prim where
  | vint (size : Nat) (endian : Endian) (signed : Bool) (valu : Int)
  | vbytes (size : Nat) (valu : List Nat)
  | cstr (size : Nat) (valu : List Nat)
  | zstr (size : Nat) (valu : List Nat)
deriving DecidableEq, Repr

namespace Prim

/-- Current size of a primitive: `v_prim.vsSize` returns `_vs_size`
(`zstr.vsSize` touches `_prim_getval` first, a read without effect here). -/
def size : Prim → Nat
  | .vint n _ _ _ => n
  | .vbytes n _ => n
  | .cstr n _ => n
  | .zstr n _ => n

/-- Number of bytes a `zstr` parse consumes from `buf` at `off`: the byte
generator `_prim_yield_bytes` counts one byte per yield and `_prim_fromgen`
stops after pulling the first NUL, or at the end of the buffer. -/
def zConsumed (buf : List Nat) (off : Nat) : Nat :=
  match (buf.drop off).findIdx? (· == 0) with
  | some j => j + 1
  | none => buf.length - off

/-- Decoded characters of a NUL-terminated read: everything strictly before
the first NUL (all remaining bytes when there is none). -/
def takeTillNul (bs : List Nat) : List Nat :=
  bs.takeWhile (· ≠ 0)

/-- Decode step of `v_prim.vsParse`: the class-specific `_prim_parse` from
`types.py`, with the base orchestration (store decoded value; `zstr` also
calls `vsResize(info['size'])`) modelled from the spec (§4.3: the primitive
updates its own size to the consumed length as a side effect). -/
def parse (p : Prim) (buf : List Nat) (off : Nat) : Prim :=
  match p with
  | .vint n e s _ => .vint n e s (decodeInt n e s (pySlice buf off n))
  | .vbytes n _ => .vbytes n (pySlice buf off n)
  | .cstr n _ => .cstr n (takeTillNul (pySlice buf off n))
  | .zstr _ _ => .zstr (zConsumed buf off) (takeTillNul (buf.drop off))

/-- Encode step of `v_prim.vsEmit`: the class-specific `_prim_emit` from
`types.py` applied to the current value (`x.ljust(size, b'\x00')` for
`vbytes`/`cstr`, `x + '\x00'` encoded for `zstr`, `to_bytes` for integers). -/
def emit : Prim → List Nat
  | .vint n e _ v => encodeInt n e v
  | .vbytes n v => ljust v n
  | .cstr n v => ljust v n
  | .zstr _ v => v ++ [0]

/-- Primitives other than `zstr` never change `_vs_size` while parsing
("fixed-width" in the spec's sense). -/
def isFixed : Prim → Bool
  | .zstr _ _ => false
  | _ => true

/-- Primitives whose decode performs no value normalization at all, so that
re-encoding reproduces the input slice byte for byte: integers and raw
bytes (a `cstr` drops everything from the first NUL on). -/
def isExact : Prim → Bool
  | .vint _ _ _ _ => true
  | .vbytes _ _ => true
  | _ => false

end Prim

mutual
/-- A node of the field tree: either a primitive leaf or a `VStruct` with its
`_vs_endian` tag and its fields.  `_vs_fields` (dict) and `_vs_fieldorder`
(list) are represented jointly as one ordered association sequence, which the
attachment operations of `types.py` keep consistent (a name is appended to the
order exactly when it enters the dict). -/
inductive Field where
  | prim (p : Prim) : Field
  | sub (endian : Option Endian) (fs : Fields) : Field

/-- Ordered name→field association sequence of a structure. -/
inductive Fields where
  | nil : Fields
  | cons (name : VName) (f : Field) (rest : Fields) : Fields
end

mutual
/-- Flattened depth-first primitive sequence of a field, `VStruct._vs_prims`:
recurse through non-primitive children, yield primitive leaves. -/
def primsF : Field → List Prim
  | .prim p => [p]
  | .sub _ fs => primsFs fs

/-- `VStruct._vs_prims` over the ordered children of a structure. -/
def primsFs : Fields → List Prim
  | .nil => []
  | .cons _ f rest => primsF f ++ primsFs rest
end

/-- Offset tagging of `VStruct.vsPrims`: pair every primitive with the running
offset, advancing by the primitive's current size after yielding it. -/
def withOffs : Nat → List Prim → List (Nat × Prim)
  | _, [] => []
  | k, p :: ps => (k, p) :: withOffs (k + p.size) ps

/-- `VStruct.vsPrims()`: `(offset, primitive)` pairs of one fresh walk. -/
def vsPrims (f : Field) : List (Nat × Prim) :=
  withOffs 0 (primsF f)

/-- `VStruct.vsSize()`: offset plus size of the last primitive of one full
walk, `0` when there are no primitives. -/
def vsSize (f : Field) : Nat :=
  match (vsPrims f).getLast? with
  | none => 0
  | some (off, p) => off + p.size

/-- Behaviour of `io.BytesIO` under `seek(pos)` followed by `write(data)`:
overwrite in place, zero-fill any gap past the current end, grow as needed. -/
def bioWrite (bio : List Nat) (pos : Nat) (data : List Nat) : List Nat :=
  (bio.take pos ++ List.replicate (pos - bio.length) 0) ++ data
    ++ bio.drop (pos + data.length)

/-- `VStruct.vsEmit()`: seek to each walked offset and write the primitive's
emitted bytes into a fresh `BytesIO`, then read the whole buffer back. -/
def vsEmit (f : Field) : List Nat :=
  (vsPrims f).foldl (fun bio op => bioWrite bio op.1 (Prim.emit op.2)) []

/-- State threaded through one parsing walk: the generator's running relative
offset, the `retoff` the loop in `VStruct.vsParse` keeps, and the trace of
relative offsets the generator has yielded (most recent last). -/
structure WalkSt where
  rel : Nat
  ret : Nat
  tr : List Nat
deriving DecidableEq, Repr

/-- One primitive step of a parsing walk: `vsPrims` yields `(rel, prim)`, the
loop body runs `retoff = prim.vsParse(buf, offset=base+rel)` (which returns
`base + rel + size-after-parse`, modelled from the spec since `v_prim` is in
the missing `bases.py`: §4.3 makes the consumed length the new size and the
end offset the running result), and the generator resumes, advancing its
offset by `prim.vsSize()` as mutated. -/
def primStep (buf : List Nat) (base : Nat) (p : Prim) (st : WalkSt) :
    Prim × WalkSt :=
  let p2 := p.parse buf (base + st.rel)
  (p2, ⟨st.rel + p2.size, base + st.rel + p2.size, st.tr ++ [st.rel]⟩)

mutual
/-- Parsing walk over one field: mirrors the interleaving of the lazy
`vsPrims` generator with the loop of `VStruct.vsParse` (the generator
recomputes the running offset from current sizes in flight). -/
def parseF (buf : List Nat) (base : Nat) : Field → WalkSt → Field × WalkSt
  | .prim p, st =>
    let r := primStep buf base p st
    (.prim r.1, r.2)
  | .sub e fs, st =>
    let r := parseFs buf base fs st
    (.sub e r.1, r.2)

/-- Parsing walk over an ordered field sequence. -/
def parseFs (buf : List Nat) (base : Nat) : Fields → WalkSt → Fields × WalkSt
  | .nil, st => (.nil, st)
  | .cons n f rest, st =>
    let r := parseF buf base f st
    let r2 := parseFs buf base rest r.2
    (.cons n r.1 r2.1, r2.2)
end

/-- `VStruct.vsParse(buf, offset)`: walk and parse every primitive, returning
the updated tree and the final `retoff` (initialised to `offset`, so a
structure without primitives returns `offset` unchanged). -/
def vsParse (f : Field) (buf : List Nat) (off : Nat) : Field × Nat :=
  let r := parseF buf off f ⟨0, off, []⟩
  (r.1, r.2.ret)

/-- Relative offsets the `vsPrims` generator yields during one parse of `f`
against `buf`, in yield order (the offsets at which the primitives are
actually decoded on that same walk). -/
def parseOffsets (f : Field) (buf : List Nat) (off : Nat) : List Nat :=
  (parseF buf off f ⟨0, off, []⟩).2.tr

/-- List-level form of the parsing walk over a flattened primitive sequence;
`parseF` reduces to it through `primsF`. -/
def parseL (buf : List Nat) (base : Nat) : List Prim → WalkSt → List Prim × WalkSt
  | [], st => ([], st)
  | p :: ps, st =>
    let r := primStep buf base p st
    let r2 := parseL buf base ps r.2
    (r.1 :: r2.1, r2.2)

/-- Dictionary read `self._vs_fields.get(name)` over the ordered sequence. -/
def getF : Fields → VName → Option Field
  | .nil, _ => none
  | .cons n f rest, k => if n = k then some f else getF rest k

/-- Combined effect on the ordered sequence of `self._vs_fields[name] = valu`
plus `self._vs_fieldorder.append(name)` when the name was absent: an existing
name keeps its position and gets the new field, a new name goes to the end. -/
def setF : Fields → VName → Field → Fields
  | .nil, k, v => .cons k v .nil
  | .cons n f rest, k, v =>
    if n = k then .cons k v rest else .cons n f (setF rest k v)

/-- Iteration order of the names (`_vs_fieldorder`). -/
def keysF : Fields → List VName
  | .nil => []
  | .cons n _ rest => n :: keysF rest

/-- Dictionary size `len(self._vs_fields)`. -/
def lenF : Fields → Nat
  | .nil => 0
  | .cons _ _ rest => lenF rest + 1

/-- Python values that are not vstruct fields, as they reach `__setattr__` /
`__setitem__` / `_prim_setval`: integers, text and bytes. -/
inductive RawVal where
  | pint (v : Int)
  | pstr (s : List Nat)
  | pbytes (b : List Nat)
deriving DecidableEq, Repr

/-- A value assigned through `__setattr__` / `__setitem__`: either a
`v_base` instance (a field) or a plain Python value. -/
inductive PyVal where
  | field (f : Field)
  | raw (v : RawVal)

/-- Value assignment `_prim_setval` on a primitive, which routes through the
class-specific `_prim_norm` of `types.py` (`cstr` truncates to size, `zstr`
resizes to the encoded length plus the terminator, `vbytes` keeps both value
and size as given — the `FIXME` in its source).  The dispatch itself lives in
the missing `bases.py` and is modelled from the spec (§6 `setValue`, which may
fail with `InvalidValue` on a wrong scalar domain). -/
def Prim.setval : Prim → RawVal → Option Prim
  | .vint n e s _, .pint v => some (.vint n e s v)
  | .vbytes n _, .pbytes b => some (.vbytes n b)
  | .cstr n _, .pstr s => some (.cstr n (s.take n))
  | .zstr _ _, .pstr s => some (.zstr (s.length + 1) s)
  | _, _ => none

/-- Value assignment on an arbitrary existing field.  A `VStruct` does not
define `_prim_setval` (only `_prim_getval`, `types.py` line 158), so calling
it on a structure-valued field raises `AttributeError` through `__getattr__`;
modelled from the spec in that `bases.py` cannot be checked for a fallback
(§4.1 presumes fields whose value cannot be set exist). -/
def trySetVal : Field → RawVal → Option Field
  | .prim p, v => (p.setval v).map .prim
  | .sub _ _, _ => none

/-- Endianness override in `VStruct.__setattr__`: when the structure's
`_vs_endian` is set (truthy) and the assigned value is a `v_int`, the field's
own `_vs_endian` is overwritten before the field is stored. -/
def endianFix (se : Option Endian) (f : Field) : Field :=
  match se, f with
  | some e, .prim (.vint n _ s v) => .prim (.vint n e s v)
  | _, _ => f

/-- Outcome of `VStruct.__setattr__(name, valu)`. -/
inductive SetAttrOutcome where
  | setInternal : SetAttrOutcome
  | attached (fs : Fields) : SetAttrOutcome
  | setValue (fs : Fields) : SetAttrOutcome
  | errorAttr : SetAttrOutcome
  | setPlainAttr : SetAttrOutcome

/-- `VStruct.__setattr__` on a structure with endian tag `se` and fields
`fs`: `_vs_*` names bypass the field machinery; a `v_base` value is attached
(after the integer endianness override); otherwise an existing field's value
is set; otherwise the assignment falls through to `object.__setattr__` and
silently creates a plain instance attribute. -/
def vsSetAttr (se : Option Endian) (fs : Fields) (name : String) (v : PyVal) :
    SetAttrOutcome :=
  if startsVs name then .setInternal
  else
    match v with
    | .field fld => .attached (setF fs (.str name) (endianFix se fld))
    | .raw rv =>
      match getF fs (.str name) with
      | some fld =>
        match trySetVal fld rv with
        | some fld2 => .setValue (setF fs (.str name) fld2)
        | none => .errorAttr
      | none => .setPlainAttr

/-- Outcome of `VStruct.__setitem__(name, valu)`. -/
inductive SetItemOutcome where
  | attached (fs : Fields) : SetItemOutcome
  | setValue (fs : Fields) : SetItemOutcome
  | errorUndefinedField : SetItemOutcome
  | errorAttr : SetItemOutcome

/-- `VStruct.__setitem__` on fields `fs`: a `v_base` value is attached (no
endianness override on this path); otherwise a missing name raises
`Exception('Undefined Field: ...')`; otherwise the existing field's value is
set. -/
def vsSetItem (fs : Fields) (name : VName) (v : PyVal) : SetItemOutcome :=
  match v with
  | .field fld => .attached (setF fs name fld)
  | .raw rv =>
    match getF fs name with
    | none => .errorUndefinedField
    | some fld =>
      match trySetVal fld rv with
      | some fld2 => .setValue (setF fs name fld2)
      | none => .errorAttr

/-- `VArray.vsAddElement(elem)`: attach under the next integer index,
`self[len(self._vs_fields)] = elem`. -/
def vsAddElement (fs : Fields) (elem : Field) : Fields :=
  setF fs (.num (lenF fs)) elem

/-- Python runtime errors surfaced by the modelled operations. -/
inductive PyErr where
  | nameError (missing : String)
deriving DecidableEq, Repr

/-- Python 3 name lookup of `xrange`: the builtin existed only in Python 2,
so evaluating `xrange(count)` in this (Python 3) package raises
`NameError: name 'xrange' is not defined` before any iteration happens. -/
def xrange (_count : Nat) : Except PyErr (List Nat) :=
  .error (.nameError "xrange")

/-- `VArray.vsAddElements(count, eclass)`: `for i in xrange(count):
self.vsAddElement(eclass())`. -/
def vsAddElements (fs : Fields) (count : Nat) (eclass : Unit → Field) :
    Except PyErr Fields := do
  let idxs ← xrange count
  return idxs.foldl (fun acc _ => vsAddElement acc (eclass ())) fs

/-- Modelled from the spec: the behaviour `vsAddElements` documents and §4.5
prescribes — call `vsAddElement` once per index `0 ≤ i < count` with a fresh
element (what `for i in range(count)` would do). -/
def vsAddElementsIntended (fs : Fields) (count : Nat) (eclass : Unit → Field) :
    Fields :=
  (List.range count).foldl (fun acc _ => vsAddElement acc (eclass ())) fs

/-- Keys of the `venum` map: attribute names (strings) and the enumeration
values assigned to them. -/
abbrev EKey := VName

/-- Python dict assignment `m[k] = v` on an insertion-ordered association
list: overwrite in place or append. -/
def dictSet : List (EKey × EKey) → EKey → EKey → List (EKey × EKey)
  | [], k, v => [(k, v)]
  | (k2, v2) :: rest, k, v =>
    if k2 = k then (k, v) :: rest else (k2, v2) :: dictSet rest k v

/-- Python dict read `m.get(k)`. -/
def dictGet : List (EKey × EKey) → EKey → Option EKey
  | [], _ => none
  | (k2, v2) :: rest, k => if k2 = k then some v2 else dictGet rest k

/-- `venum.__setattr__(name, valu)`: store both directions in
`_vs_enum_map` (`map[valu] = name` first, then `map[name] = valu`). -/
def enumSet (m : List (EKey × EKey)) (name : String) (valu : EKey) :
    List (EKey × EKey) :=
  dictSet (dictSet m valu (.str name)) (.str name) valu

/-- `venum.__getitem__(item)`: `self._vs_enum_map.get(item)`. -/
def enumGet (m : List (EKey × EKey)) (k : EKey) : Option EKey :=
  dictGet m k

/-- Total of the current sizes of a primitive sequence (the value one full
walk of `vsPrims` advances its running offset by). -/
def sumSizes (ps : List Prim) : Nat :=
  (ps.map Prim.size).sum

/-- Concatenation of two ordered field sequences (a structure whose
definition lists one block of fields after another). -/
def appFs : Fields → Fields → Fields
  | .nil, gs => gs
  | .cons n f rest, gs => .cons n f (appFs rest gs)

/-- Structure shape of the resize-propagation claim: an arbitrary block of
preceding fields, then a NUL-terminated text field, then an integer field. -/
def zThenInt (pre : Fields) (z iv : Prim) : Field :=
  .sub none (appFs pre
    (.cons (.str "t") (.prim z) (.cons (.str "y") (.prim iv) .nil)))

/-! ### Concrete instances used by the theorems and their witnesses -/

/-- Structure of the spec's first concrete scenario: `x = int8()`,
`y = uint32()` (little endian), `z = vbytes(6)`. -/
def specStruct : Field :=
  .sub none (.cons (.str "x") (.prim (.vint 1 .little true 0))
    (.cons (.str "y") (.prim (.vint 4 .little false 0))
    (.cons (.str "z") (.prim (.vbytes 6 [])) .nil)))

/-- Buffer of the spec's first concrete scenario:
`01 02 00 00 00 41 42 43 44 45 46`. -/
def specBuf : List Nat := [1, 2, 0, 0, 0, 65, 66, 67, 68, 69, 70]

/-- Structure with a `vbytes(size=2, val=b'ABCD')` field: the initial value
is longer than the declared size (`vbytes.__init__` stores it untruncated,
noted by the `FIXME` at the bottom of the class). -/
def overlongStruct : Field :=
  .sub none (.cons (.str "x") (.prim (.vbytes 2 [65, 66, 67, 68])) .nil)

/-- One-field association sequence used by attachment witnesses. -/
def wFields : Fields :=
  .cons (.str "x") (.prim (.vint 1 .little true 0)) .nil

/-- Fresh signed 8-bit integer field, `int8()`. -/
def wPrimF : Field := .prim (.vint 1 .little true 0)

/-- Enumeration table built by `foo = venum(); foo.A = 1; foo.B = 2`. -/
def fooEnum : List (EKey × EKey) :=
  enumSet (enumSet [] "A" (.num 1)) "B" (.num 2)

/-- Fresh `uint32()` element for the array claims. -/
def mkU32 : Unit → Field := fun _ => .prim (.vint 4 .little false 0)

/-- One fixed-width field (`uint8`) in front of the text field, for the
resize-propagation witness. -/
def preA : Fields := .cons (.str "a") (.prim (.vint 1 .little false 0)) .nil

/-- Witness structure for resize propagation: `uint8`, then `zstr()`, then
`uint16`. -/
def wZ : Field := zThenInt preA (.zstr 0 []) (.vint 2 .little false 0)

/-- Buffer whose text portion is `b'hi\x00'` after one leading byte. -/
def zBuf1 : List Nat := [7, 104, 105, 0, 3, 0]

/-- Buffer whose text portion is `b'hij\x00'` after one leading byte. -/
def zBuf2 : List Nat := [7, 104, 105, 106, 0, 3, 0]

/-! ### Helper lemmas about the association sequence -/

theorem getF_setF_self : ∀ (fs : Fields) (k : VName) (v : Field),
    getF (setF fs k v) k = some v
  | .nil, k, v => by simp [setF, getF]
  | .cons n f rest, k, v => by
    by_cases h : n = k
    · simp [setF, getF, h]
    · simpa [setF, getF, h] using getF_setF_self rest k v

theorem getF_setF_other : ∀ (fs : Fields) (k m : VName) (v : Field),
    m ≠ k → getF (setF fs k v) m = getF fs m
  | .nil, k, m, v, h => by
    have hkm : ¬ k = m := fun hh => h hh.symm
    simp [setF, getF, hkm]
  | .cons n f rest, k, m, v, h => by
    by_cases hn : n = k
    · subst hn
      have hnm : ¬ n = m := fun hh => h hh.symm
      simp [setF, getF, hnm]
    · by_cases hm : n = m
      · subst hm
        simp [setF, getF, hn]
      · simp [setF, getF, hn, hm, getF_setF_other rest k m v h]

theorem keysF_setF : ∀ (fs : Fields) (k : VName) (v : Field),
    keysF (setF fs k v) =
      if (getF fs k).isSome then keysF fs else keysF fs ++ [k]
  | .nil, k, v => by simp [setF, getF, keysF]
  | .cons n f rest, k, v => by
    by_cases h : n = k
    · simp [setF, getF, keysF, h]
    · simp only [setF, getF, keysF, if_neg h, keysF_setF rest k v]
      by_cases h2 : (getF rest k).isSome <;> simp [h2]

/-! ### Walk lemmas -/

theorem parseL_append (buf : List Nat) (base : Nat) :
    ∀ (xs ys : List Prim) (st : WalkSt),
      parseL buf base (xs ++ ys) st =
        ((parseL buf base xs st).1
            ++ (parseL buf base ys (parseL buf base xs st).2).1,
          (parseL buf base ys (parseL buf base xs st).2).2) := by
  intro xs
  induction xs with
  | nil => intro ys st; simp [parseL]
  | cons p ps ih => intro ys st; simp [parseL, ih]

mutual
theorem parseF_toL (buf : List Nat) (base : Nat) :
    ∀ (f : Field) (st : WalkSt),
      primsF (parseF buf base f st).1 = (parseL buf base (primsF f) st).1 ∧
      (parseF buf base f st).2 = (parseL buf base (primsF f) st).2
  | .prim p, st => by simp [parseF, primsF, parseL]
  | .sub e fs, st => by
    have h := parseFs_toL buf base fs st
    simpa [parseF, primsF] using h

theorem parseFs_toL (buf : List Nat) (base : Nat) :
    ∀ (fs : Fields) (st : WalkSt),
      primsFs (parseFs buf base fs st).1 = (parseL buf base (primsFs fs) st).1 ∧
      (parseFs buf base fs st).2 = (parseL buf base (primsFs fs) st).2
  | .nil, st => by simp [parseFs, primsFs, parseL]
  | .cons n f rest, st => by
    have h1 := parseF_toL buf base f st
    have h2 := parseFs_toL buf base rest (parseF buf base f st).2
    simp only [parseFs, primsFs, parseL_append]
    rw [← h1.1, ← h1.2] at *
    exact ⟨by rw [h1.1, h1.2, ← h2.1], by rw [h1.2, ← h2.2]⟩
end

theorem parseL_rel (buf : List Nat) (base : Nat) :
    ∀ (ps : List Prim) (st : WalkSt),
      (parseL buf base ps st).2.rel
        = st.rel + sumSizes (parseL buf base ps st).1 := by
  intro ps
  induction ps with
  | nil => intro st; simp [parseL, sumSizes]
  | cons p ps ih =>
    intro st
    simp only [parseL, primStep, sumSizes, List.map_cons, List.sum_cons]
    rw [ih]
    simp [sumSizes]
    omega

theorem parseL_ret (buf : List Nat) (base : Nat) :
    ∀ (ps : List Prim) (st : WalkSt), st.ret = base + st.rel →
      (parseL buf base ps st).2.ret = base + (parseL buf base ps st).2.rel := by
  intro ps
  induction ps with
  | nil => intro st h; simpa [parseL] using h
  | cons p ps ih =>
    intro st h
    simp only [parseL, primStep]
    exact ih _ (by
      show base + st.rel + (p.parse buf (base + st.rel)).size
        = base + (st.rel + (p.parse buf (base + st.rel)).size)
      omega)

theorem withOffs_length : ∀ (ps : List Prim) (k : Nat),
    (withOffs k ps).length = ps.length
  | [], _ => rfl
  | p :: ps, k => by simp [withOffs, withOffs_length ps]

theorem lastEnd_withOffs : ∀ (ps : List Prim) (k : Nat), ps ≠ [] →
    (match (withOffs k ps).getLast? with
      | none => 0
      | some op => op.1 + op.2.size) = k + sumSizes ps
  | [], _, h => absurd rfl h
  | [p], k, _ => by simp [withOffs, sumSizes]
  | p :: q :: ps, k, _ => by
    have ih := lastEnd_withOffs (q :: ps) (k + p.size) (by simp)
    simp only [withOffs, List.getLast?_cons_cons] at ih ⊢
    rw [ih]
    simp [sumSizes]
    omega

theorem vsSize_eq_sum (f : Field) : vsSize f = sumSizes (primsF f) := by
  unfold vsSize vsPrims
  rcases hps : primsF f with _ | ⟨p, ps⟩
  · simp [withOffs, sumSizes]
  · simpa using lastEnd_withOffs (p :: ps) 0 (by simp)

theorem withOffs_getD_base : ∀ (ps : List Prim) (k m : Nat) (d : Nat × Prim),
    m < ps.length → k ≤ ((withOffs k ps).getD m d).1
  | [], _, m, _, hm => absurd hm (by simp)
  | p :: ps, k, 0, d, _ => by simp [withOffs]
  | p :: ps, k, m + 1, d, hm => by
    have := withOffs_getD_base ps (k + p.size) m d (by simpa using hm)
    simp only [withOffs, List.getD_cons_succ]
    omega

theorem withOffs_mono : ∀ (ps : List Prim) (k i j : Nat) (d : Nat × Prim),
    j < ps.length → i < j →
    ((withOffs k ps).getD i d).1 + ((withOffs k ps).getD i d).2.size
      ≤ ((withOffs k ps).getD j d).1
  | [], _, _, _, _, hj, _ => absurd hj (by simp)
  | p :: ps, k, 0, j, d, hj, hij => by
    obtain ⟨j2, rfl⟩ : ∃ j2, j = j2 + 1 :=
      ⟨j - 1, by omega⟩
    have := withOffs_getD_base ps (k + p.size) j2 d (by simpa using hj)
    simpa [withOffs] using this
  | p :: ps, k, i + 1, j, d, hj, hij => by
    obtain ⟨j2, rfl⟩ : ∃ j2, j = j2 + 1 := ⟨j - 1, by omega⟩
    have := withOffs_mono ps (k + p.size) i j2 d (by simpa using hj) (by omega)
    simpa [withOffs] using this

/-! ### Claims about the offset walk -/

/-- Claim C3: `vsParse(buf, offset)` returns `offset + vsSize()` with the
size measured after the parse has completed; a structure with no descendant
primitives returns `offset` unchanged (spec-modelled in part: the per-field
`v_prim.vsParse` return convention comes from `bases.py`, absent from the
sources, per spec §4.3). -/
theorem claim3_parse_retoff (f : Field) (buf : List Nat) (off : Nat) :
    (vsParse f buf off).2 = off + vsSize (vsParse f buf off).1 := by
  have hb := parseF_toL buf off f ⟨0, off, []⟩
  have hrel := parseL_rel buf off (primsF f) ⟨0, off, []⟩
  have hret := parseL_ret buf off (primsF f) ⟨0, off, []⟩ (by simp)
  simp only [vsParse, vsSize_eq_sum, hb.1, hb.2]
  rw [hret, hrel]
  simp

/-- Claim C5: in one `vsPrims()` walk, the offset yielded with an earlier
primitive plus that primitive's size never exceeds the offset yielded with
any later primitive (offsets are consecutive partial sums of current sizes,
which are non-negative). -/
theorem claim5_offset_monotone (f : Field) (i j : Nat) (d : Nat × Prim)
    (hj : j < (vsPrims f).length) (hij : i < j) :
    ((vsPrims f).getD i d).1 + ((vsPrims f).getD i d).2.size
      ≤ ((vsPrims f).getD j d).1 := by
  have hlen : j < (primsF f).length := by
    simpa [vsPrims, withOffs_length] using hj
  simpa [vsPrims] using withOffs_mono (primsF f) 0 i j d hlen hij

/-- Witness for claim C5: the first two primitives of the spec's concrete
scenario structure. -/
theorem claim5_offset_monotone_witness :
    ((vsPrims specStruct).getD 0 (0, .vbytes 0 [])).1
        + ((vsPrims specStruct).getD 0 (0, .vbytes 0 [])).2.size
      ≤ ((vsPrims specStruct).getD 1 (0, .vbytes 0 [])).1 :=
  claim5_offset_monotone specStruct 0 1 (0, .vbytes 0 []) (by decide) (by decide)

/-! ### Codec round-trip lemmas -/

theorem decodeLE_lt : ∀ (bs : List Nat), (∀ x ∈ bs, x < 256) →
    decodeLE bs < 256 ^ bs.length
  | [], _ => by simp [decodeLE]
  | b :: bs, h => by
    have hb : b < 256 := h b (by simp)
    have ih := decodeLE_lt bs fun x hx => h x (by simp [hx])
    simp only [decodeLE, List.length_cons, pow_succ]
    calc b + 256 * decodeLE bs ≤ 255 + 256 * (256 ^ bs.length - 1) := by
          have : decodeLE bs ≤ 256 ^ bs.length - 1 := by omega
          omega
      _ < 256 ^ bs.length * 256 := by
          have : 1 ≤ 256 ^ bs.length := Nat.one_le_pow _ _ (by omega)
          omega

theorem natToLE_decodeLE : ∀ (bs : List Nat), (∀ x ∈ bs, x < 256) →
    natToLE bs.length (decodeLE bs) = bs
  | [], _ => rfl
  | b :: bs, h => by
    have hb : b < 256 := h b (by simp)
    have ih := natToLE_decodeLE bs fun x hx => h x (by simp [hx])
    simp only [List.length_cons, natToLE, decodeLE]
    rw [show (b + 256 * decodeLE bs) % 256 = b by omega,
      show (b + 256 * decodeLE bs) / 256 = decodeLE bs by omega, ih]

theorem pow256_eq (n : Nat) : (2 : Nat) ^ (8 * n) = 256 ^ n := by
  rw [pow_mul]
  norm_num

theorem encodeInt_decodeInt (n : Nat) (e : Endian) (sg : Bool)
    (bs : List Nat) (hlen : bs.length = n) (hb : ∀ x ∈ bs, x < 256) :
    encodeInt n e (decodeInt n e sg bs) = bs := by
  have key : ∀ (cs : List Nat), cs.length = n → (∀ x ∈ cs, x < 256) →
      natToLE n (((if sg ∧ 2 ^ (8 * n) ≤ 2 * decodeLE cs
          then (decodeLE cs : Int) - 2 ^ (8 * n)
          else (decodeLE cs : Int)) % (2 ^ (8 * n) : Int)).toNat) = cs := by
    intro cs hl hc
    have hu : decodeLE cs < 2 ^ (8 * n) := by
      rw [pow256_eq, ← hl]
      exact decodeLE_lt cs hc
    have hlt : (decodeLE cs : Int) < 2 ^ (8 * n) := by exact_mod_cast hu
    have hnn : (0 : Int) ≤ (decodeLE cs : Int) := Int.ofNat_nonneg _
    have hmod : ((if sg ∧ 2 ^ (8 * n) ≤ 2 * decodeLE cs
        then (decodeLE cs : Int) - 2 ^ (8 * n)
        else (decodeLE cs : Int)) % (2 ^ (8 * n) : Int))
        = (decodeLE cs : Int) := by
      by_cases hc2 : sg ∧ 2 ^ (8 * n) ≤ 2 * decodeLE cs
      · rw [if_pos hc2,
          show (decodeLE cs : Int) - 2 ^ (8 * n)
            = (decodeLE cs : Int) + 2 ^ (8 * n) * (-1) by ring,
          Int.add_mul_emod_self_left, Int.emod_eq_of_lt hnn hlt]
      · rw [if_neg hc2, Int.emod_eq_of_lt hnn hlt]
    rw [hmod, Int.toNat_ofNat, ← hl, natToLE_decodeLE cs hc]
  cases e with
  | little =>
    simpa only [encodeInt, decodeInt] using key bs hlen hb
  | big =>
    have h2 := key bs.reverse (by simpa using hlen)
      (fun x hx => hb x (List.mem_reverse.mp hx))
    simp only [encodeInt, decodeInt]
    rw [h2, List.reverse_reverse]

theorem pySlice_length (buf : List Nat) (off n : Nat)
    (h : off + n ≤ buf.length) : (pySlice buf off n).length = n := by
  simp [pySlice]
  omega

theorem pySlice_mem (buf : List Nat) (off n : Nat) (x : Nat)
    (hx : x ∈ pySlice buf off n) : x ∈ buf :=
  List.mem_of_mem_drop (List.mem_of_mem_take hx)

theorem parse_size_exact (p : Prim) (hx : p.isExact = true)
    (buf : List Nat) (off : Nat) : (p.parse buf off).size = p.size := by
  cases p <;> simp_all [Prim.isExact, Prim.parse, Prim.size]

theorem emit_parse_exact (p : Prim) (hx : p.isExact = true) (buf : List Nat)
    (off : Nat) (h : off + p.size ≤ buf.length) (hb : ∀ x ∈ buf, x < 256) :
    (p.parse buf off).emit = pySlice buf off p.size := by
  cases p with
  | vint n e sg v =>
    simp only [Prim.parse, Prim.emit, Prim.size] at h ⊢
    exact encodeInt_decodeInt n e sg _ (pySlice_length buf off n h)
      fun x hx2 => hb x (pySlice_mem buf off n x hx2)
  | vbytes n v =>
    simp only [Prim.parse, Prim.emit, Prim.size, ljust] at h ⊢
    rw [pySlice_length buf off n h]
    simp
  | cstr n v => simp [Prim.isExact] at hx
  | zstr n v => simp [Prim.isExact] at hx

theorem bioWrite_at_end (bio data : List Nat) (pos : Nat)
    (h : bio.length = pos) : bioWrite bio pos data = bio ++ data := by
  subst h
  simp [bioWrite, List.drop_eq_nil_of_le]

theorem emit_after_parseL (buf : List Nat) (hb : ∀ x ∈ buf, x < 256) :
    ∀ (ps : List Prim) (rel r0 : Nat) (t0 : List Nat),
      ps.all Prim.isExact = true →
      rel + sumSizes ps ≤ buf.length →
      List.foldl (fun bio op => bioWrite bio op.1 (Prim.emit op.2))
          (buf.take rel) (withOffs rel (parseL buf 0 ps ⟨rel, r0, t0⟩).1)
        = buf.take (rel + sumSizes ps) := by
  intro ps
  induction ps with
  | nil => intro rel r0 t0 _ _; simp [parseL, withOffs, sumSizes]
  | cons p ps ih =>
    intro rel r0 t0 hx hlen
    have hxp : p.isExact = true := by
      simp only [List.all_cons, Bool.and_eq_true] at hx
      exact hx.1
    have hxps : ps.all Prim.isExact = true := by
      simp only [List.all_cons, Bool.and_eq_true] at hx
      exact hx.2
    have hsum : sumSizes (p :: ps) = p.size + sumSizes ps := by
      simp [sumSizes]
    have hsz : (p.parse buf (0 + rel)).size = p.size := by
      rw [Nat.zero_add]; exact parse_size_exact p hxp buf rel
    have hfit : rel + p.size ≤ buf.length := by
      rw [hsum] at hlen; omega
    have hemit : (p.parse buf (0 + rel)).emit = pySlice buf rel p.size := by
      rw [Nat.zero_add]; exact emit_parse_exact p hxp buf rel hfit hb
    have ih2 := ih (rel + p.size) (0 + rel + p.size) (t0 ++ [rel]) hxps
      (by rw [hsum] at hlen; omega)
    simp only [parseL, primStep, hsz, withOffs, List.foldl_cons]
    rw [bioWrite_at_end _ _ rel (by rw [List.length_take]; omega), hemit]
    simp only [pySlice]
    rw [← List.take_add, ih2, hsum]
    congr 1
    omega

theorem primsFs_app : ∀ (a b : Fields),
    primsFs (appFs a b) = primsFs a ++ primsFs b
  | .nil, b => by simp [appFs, primsFs]
  | .cons n f rest, b => by
    simp [appFs, primsFs, primsFs_app rest b]

theorem parse_size_fixed (p : Prim) (hf : p.isFixed = true)
    (buf : List Nat) (off : Nat) : (p.parse buf off).size = p.size := by
  cases p <;> simp_all [Prim.isFixed, Prim.parse, Prim.size]

theorem parseL_length (buf : List Nat) (base : Nat) :
    ∀ (ps : List Prim) (st : WalkSt),
      (parseL buf base ps st).1.length = ps.length := by
  intro ps
  induction ps with
  | nil => intro st; simp [parseL]
  | cons p ps ih => intro st; simp [parseL, primStep, ih]

theorem parseL_fixed (buf : List Nat) (base : Nat) :
    ∀ (ps : List Prim) (st : WalkSt), ps.all Prim.isFixed = true →
      (parseL buf base ps st).2.rel = st.rel + sumSizes ps ∧
      (parseL buf base ps st).2.tr
        = st.tr ++ (withOffs st.rel ps).map Prod.fst := by
  intro ps
  induction ps with
  | nil => intro st _; simp [parseL, sumSizes, withOffs]
  | cons p ps ih =>
    intro st hf
    have hfp : p.isFixed = true := by
      simp only [List.all_cons, Bool.and_eq_true] at hf
      exact hf.1
    have hfps : ps.all Prim.isFixed = true := by
      simp only [List.all_cons, Bool.and_eq_true] at hf
      exact hf.2
    have hsz : (p.parse buf (base + st.rel)).size = p.size :=
      parse_size_fixed p hfp buf (base + st.rel)
    have ih2 := ih ⟨st.rel + p.size, base + st.rel + p.size,
      st.tr ++ [st.rel]⟩ hfps
    simp only [parseL, primStep, hsz, withOffs, List.map_cons]
    refine ⟨?_, ?_⟩
    · rw [ih2.1]
      simp [sumSizes]
      omega
    · rw [ih2.2]
      simp

/-- Claim C1: for a structure all of whose primitives are fixed-width with
no decode-time normalization (`vint` and `vbytes` leaves), parsing a byte
buffer at least `vsSize()` long and emitting again reproduces exactly the
first `vsSize()` bytes of the buffer (spec-modelled in part: the `v_prim`
parse orchestration and the `v_int` two's-complement codec live in the
missing `bases.py` and are modelled from spec §3/§4.3/§6). -/
theorem claim1_parse_emit_roundtrip (f : Field) (buf : List Nat)
    (hx : (primsF f).all Prim.isExact = true)
    (hlen : vsSize f ≤ buf.length)
    (hb : ∀ x ∈ buf, x < 256) :
    vsEmit (vsParse f buf 0).1 = buf.take (vsSize f) := by
  have hbr := parseF_toL buf 0 f ⟨0, 0, []⟩
  have hkey := emit_after_parseL buf hb (primsF f) 0 0 [] hx
    (by rw [vsSize_eq_sum] at hlen; omega)
  simp only [vsEmit, vsPrims, vsParse, hbr.1, vsSize_eq_sum]
  simpa using hkey

/-- Witness for claim C1: the spec's concrete scenario — `int8`, `uint32`
little endian, `vbytes(6)` against the 11-byte buffer
`01 02 00 00 00 41 42 43 44 45 46`. -/
theorem claim1_parse_emit_roundtrip_witness :
    (primsF specStruct).all Prim.isExact = true ∧
    vsSize specStruct ≤ specBuf.length ∧ (∀ x ∈ specBuf, x < 256) ∧
    vsEmit (vsParse specStruct specBuf 0).1 = specBuf.take (vsSize specStruct) :=
  ⟨rfl, by decide, by decide,
    claim1_parse_emit_roundtrip specStruct specBuf rfl (by decide) (by decide)⟩

/-- Claim C2: during a single `vsParse` walk over a structure made of
fixed-width fields, then a NUL-terminated text field, then an integer field,
the offset yielded for the integer already reflects the text field's
just-consumed length — it equals the fixed block's size plus the bytes the
text consumed from that buffer — so parsing two buffers whose text lengths
differ by `d` shifts the integer's offset by exactly `d` (spec-modelled in
part: the `v_prim` parse orchestration comes from the missing `bases.py`,
per spec §4.3). -/
theorem claim2_resize_propagation (pre : Fields) (zs : Nat) (zv : List Nat)
    (n : Nat) (e : Endian) (sg : Bool) (iv : Int)
    (hf : (primsFs pre).all Prim.isFixed = true) :
    (∀ buf : List Nat,
      (parseOffsets (zThenInt pre (.zstr zs zv) (.vint n e sg iv)) buf 0).getLastD 0
        = sumSizes (primsFs pre)
          + Prim.zConsumed buf (sumSizes (primsFs pre))) ∧
    (∀ b1 b2 : List Nat,
      ((parseOffsets (zThenInt pre (.zstr zs zv) (.vint n e sg iv)) b1 0).getLastD 0 : Int)
          - ((parseOffsets (zThenInt pre (.zstr zs zv) (.vint n e sg iv)) b2 0).getLastD 0 : Int)
        = (Prim.zConsumed b1 (sumSizes (primsFs pre)) : Int)
          - (Prim.zConsumed b2 (sumSizes (primsFs pre)) : Int)) := by
  have hprims : primsF (zThenInt pre (.zstr zs zv) (.vint n e sg iv))
      = primsFs pre ++ [.zstr zs zv, .vint n e sg iv] := by
    simp [zThenInt, primsF, primsFs_app, primsFs]
  have main : ∀ buf : List Nat,
      (parseOffsets (zThenInt pre (.zstr zs zv) (.vint n e sg iv)) buf 0).getLastD 0
        = sumSizes (primsFs pre)
          + Prim.zConsumed buf (sumSizes (primsFs pre)) := by
    intro buf
    have hbr := parseF_toL buf 0
      (zThenInt pre (.zstr zs zv) (.vint n e sg iv)) ⟨0, 0, []⟩
    have hfix := parseL_fixed buf 0 (primsFs pre) ⟨0, 0, []⟩ hf
    simp only [parseOffsets, hbr.2, hprims, parseL_append]
    simp only [parseL, primStep, Prim.parse, Prim.size]
    rw [hfix.2, hfix.1]
    simp [List.getLastD_eq_getLast?, List.getLast?_concat]
  exact ⟨main, fun b1 b2 => by rw [main b1, main b2]; push_cast; ring⟩

/-- Witness for claim C2: `uint8`, `zstr()`, `uint16` against buffers whose
text portions are `b'hi\x00'` and `b'hij\x00'` — the integer's offset moves
from 4 to 5, exactly the one-byte difference in text length. -/
theorem claim2_resize_propagation_witness :
    (primsFs preA).all Prim.isFixed = true ∧
    ((parseOffsets wZ zBuf1 0).getLastD 0 : Int)
        - ((parseOffsets wZ zBuf2 0).getLastD 0 : Int)
      = (Prim.zConsumed zBuf1 (sumSizes (primsFs preA)) : Int)
        - (Prim.zConsumed zBuf2 (sumSizes (primsFs preA)) : Int) :=
  ⟨rfl, (claim2_resize_propagation preA 0 [] 2 .little false 0 rfl).2 zBuf1 zBuf2⟩

/-! ### Claims about attachment, arrays and enumerations -/

/-- Claim C4: the spec demands that `vsEmit()` always return exactly
`vsSize()` bytes and that no primitive emit more than its reported size; the
code breaks this for a `vbytes` whose initial value is longer than its
declared size (`_prim_emit` pads with `ljust` but never truncates, and
`__init__` stores the overlong value as is — its own `FIXME` notes the
missing resize), so a structure holding `vbytes(2, b'ABCD')` reports size 2
yet emits 4 bytes. -/
theorem claim4_emit_length_bug :
    vsSize overlongStruct = 2 ∧ (vsEmit overlongStruct).length = 4 ∧
    (vsEmit overlongStruct).length ≠ vsSize overlongStruct := by
  refine ⟨rfl, rfl, ?_⟩
  decide

/-- Claim C6, counterexample: assigning a non-Field value (`5`) under a
fresh name through `__setattr__` does not fail with `InvalidField` (or any
error); line 187 of `types.py` silently falls through to
`object.__setattr__`, creating a plain instance attribute. -/
theorem claim6_counterexample :
    vsSetAttr none Fields.nil "foo" (.raw (.pint 5)) = .setPlainAttr ∧
    ∀ fs2 : Fields, vsSetAttr none Fields.nil "foo" (.raw (.pint 5)) ≠ .attached fs2 :=
  ⟨rfl, fun _ h => nomatch h⟩

/-- Claim C6, amended: only item-style assignment raises when a non-Field
value meets a missing name, and what it raises is the generic
`Exception('Undefined Field: ...')` — that error occurs exactly when the
name maps to no field; attribute-style assignment of a non-Field value to a
missing (non-reserved) name never raises and instead sets a plain object
attribute; attaching a genuine Field never raises on either path. -/
theorem claim6_amended :
    (∀ (fs : Fields) (name : VName) (rv : RawVal),
        vsSetItem fs name (.raw rv) = .errorUndefinedField ↔ getF fs name = none) ∧
    (∀ (se : Option Endian) (fs : Fields) (name : String) (rv : RawVal),
        startsVs name = false → getF fs (.str name) = none →
        vsSetAttr se fs name (.raw rv) = .setPlainAttr) ∧
    (∀ (fs : Fields) (name : VName) (fl : Field),
        vsSetItem fs name (.field fl) = .attached (setF fs name fl)) := by
  refine ⟨fun fs name rv => ⟨fun h => ?_, fun h => by simp [vsSetItem, h]⟩,
    fun se fs name rv h1 h2 => by simp [vsSetAttr, h1, h2],
    fun fs name fl => rfl⟩
  cases hg : getF fs name with
  | none => rfl
  | some fld =>
    exfalso
    cases hv : trySetVal fld rv <;> simp [vsSetItem, hg, hv] at h

/-- Witness for the amended claim C6 at a concrete input: the empty
structure, name `"foo"`, value `5`. -/
theorem claim6_amended_witness :
    startsVs "foo" = false ∧ getF Fields.nil (.str "foo") = none ∧
    vsSetAttr none Fields.nil "foo" (.raw (.pint 5)) = .setPlainAttr :=
  ⟨rfl, rfl, claim6_amended.2.1 none Fields.nil "foo" (.pint 5) rfl rfl⟩

/-- Claim C7: attaching a Field under an existing name replaces the mapped
field in place — the name order is untouched and every other name still maps
to its old field — while attaching under a new name appends it to the end of
the order; this holds for item-style attachment, and for attribute-style
attachment (of non-reserved names) with the structure's endianness override
applied to the stored field. -/
theorem claim7_attach_order (se : Option Endian) (fs : Fields) (name : VName)
    (fl : Field) (fs2 : Fields)
    (h2 : vsSetItem fs name (.field fl) = .attached fs2) :
    (keysF fs2 = if (getF fs name).isSome then keysF fs else keysF fs ++ [name]) ∧
    getF fs2 name = some fl ∧
    (∀ m, m ≠ name → getF fs2 m = getF fs m) ∧
    (∀ (sn : String) (fs3 : Fields), startsVs sn = false →
        vsSetAttr se fs sn (.field fl) = .attached fs3 →
        (keysF fs3 = if (getF fs (.str sn)).isSome then keysF fs
          else keysF fs ++ [.str sn]) ∧
        getF fs3 (.str sn) = some (endianFix se fl) ∧
        ∀ m, m ≠ .str sn → getF fs3 m = getF fs m) := by
  have hfs2 : setF fs name fl = fs2 := by
    simp only [vsSetItem] at h2
    injection h2
  subst hfs2
  refine ⟨keysF_setF fs name fl, getF_setF_self fs name fl,
    fun m hm => getF_setF_other fs name m fl hm, fun sn fs3 hsn h3 => ?_⟩
  have hfs3 : fs3 = setF fs (.str sn) (endianFix se fl) := by
    simp only [vsSetAttr, hsn, Bool.false_eq_true, if_false] at h3
    cases h3
    rfl
  subst hfs3
  exact ⟨keysF_setF fs (.str sn) _, getF_setF_self fs (.str sn) _,
    fun m hm => getF_setF_other fs (.str sn) m _ hm⟩

/-- Witness for claim C7 at a concrete input: attaching `int8()` under the
fresh name `"y"` of a one-field structure appends `"y"` to the order. -/
theorem claim7_attach_order_witness :
    vsSetItem wFields (.str "y") (.field wPrimF)
      = .attached (setF wFields (.str "y") wPrimF) ∧
    keysF (setF wFields (.str "y") wPrimF)
      = keysF wFields ++ [VName.str "y"] := by
  refine ⟨rfl, ?_⟩
  have h := claim7_attach_order none wFields (.str "y") wPrimF
    (setF wFields (.str "y") wPrimF) rfl
  simpa [wFields, getF] using h.1

/-- Claim C8: the spec requires `vsAddElements(count, eclass)` to call
`vsAddElement` `count` times with fresh elements; the code cannot — its loop
header reads `for i in xrange(count)` and this package is Python 3, where
`xrange` does not exist, so every call (even with `count = 0`) raises
`NameError: name 'xrange' is not defined` before adding anything.  The
spec-modelled intended loop does produce the index names `0, 1, 2`. -/
theorem claim8_addElements_bug :
    (∀ (fs : Fields) (count : Nat) (ec : Unit → Field),
        vsAddElements fs count ec = .error (.nameError "xrange")) ∧
    keysF (vsAddElementsIntended .nil 3 mkU32) = [.num 0, .num 1, .num 2] :=
  ⟨fun _ _ _ => rfl, rfl⟩

/-- Claim C9: the `venum` table built by `foo.A = 1; foo.B = 2` answers
value→label and label→value lookups in both directions, and chasing any
stored key through two lookups returns the original key. -/
theorem claim9_enum_bidirectional :
    enumGet fooEnum (.num 1) = some (.str "A") ∧
    enumGet fooEnum (.str "A") = some (.num 1) ∧
    ∀ k ∈ fooEnum.map Prod.fst,
      (enumGet fooEnum k).bind (enumGet fooEnum) = some k := by
  refine ⟨rfl, rfl, ?_⟩
  decide

/-- Witness for claim C9 at the stored key `1`. -/
theorem claim9_enum_bidirectional_witness :
    (VName.num 1 : EKey) ∈ fooEnum.map Prod.fst ∧
    (enumGet fooEnum (.num 1)).bind (enumGet fooEnum) = some (.num 1) :=
  ⟨by decide, claim9_enum_bidirectional.2.2 (.num 1) (by decide)⟩

/-- Claim C10: attribute-style attachment of an integer field to a structure
whose `_vs_endian` is set stores the field with the structure's endianness in
place of its own; when the structure's tag is `None` the field keeps the
endianness it was constructed with. -/
theorem claim10_endian_override (fs : Fields) (name : String) (n : Nat)
    (ed : Endian) (sg : Bool) (v : Int) (hn : startsVs name = false) :
    (∀ (e : Endian) (fs2 : Fields),
        vsSetAttr (some e) fs name (.field (.prim (.vint n ed sg v))) = .attached fs2 →
        getF fs2 (.str name) = some (.prim (.vint n e sg v))) ∧
    (∀ fs2 : Fields,
        vsSetAttr none fs name (.field (.prim (.vint n ed sg v))) = .attached fs2 →
        getF fs2 (.str name) = some (.prim (.vint n ed sg v))) := by
  constructor
  · intro e fs2 h
    simp only [vsSetAttr, hn, Bool.false_eq_true, if_false, endianFix] at h
    cases h
    exact getF_setF_self fs (.str name) _
  · intro fs2 h
    simp only [vsSetAttr, hn, Bool.false_eq_true, if_false, endianFix] at h
    cases h
    exact getF_setF_self fs (.str name) _

/-- Witness for claim C10 at a concrete input: a big-endian structure turns
an attached little-endian `uint16` into a big-endian one. -/
theorem claim10_endian_override_witness :
    startsVs "y" = false ∧
    getF (setF Fields.nil (.str "y") (.prim (.vint 2 .big false 7))) (.str "y")
      = some (.prim (.vint 2 .big false 7)) :=
  ⟨rfl, (claim10_endian_override Fields.nil "y" 2 .little false 7 rfl).1 .big _ rfl⟩

end VStruct2
